import Mathlib

/-!
Formal model of the Star Citizen localization proof-of-concept tool
(`sc_loc_poc.py`): the INI key-value parser/writer, the translation
validator, the merge engine and the backup manager, together with proofs
of the specification claims.  Python strings are modelled as `List Char`;
Python dicts (which preserve insertion order) are modelled as association
lists.
-/

/-- Model of the whitespace class used by Python `str.strip()` for the
characters this code base can meet: space, tab, newline, carriage return,
vertical tab and form feed.  (Python also strips the rare non-ASCII
Unicode whitespace characters; they play no role in this program.) -/
def pyIsSpace (c : Char) : Bool :=
  c = ' ' || c = '\t' || c = '\n' || c = '\r' || c = '\x0b' || c = '\x0c'

/-- Python `str.strip()`: remove whitespace from both ends of a string. -/
def pyStrip (l : List Char) : List Char :=
  List.rdropWhile pyIsSpace (l.dropWhile pyIsSpace)

/-- Helper for `splitLines`: accumulates the current line (reversed) while
scanning the text.  Line terminators are `"\r\n"`, `"\r"` and `"\n"`,
matching Python's universal-newline handling when iterating over an open
text file. -/
def splitLinesAux : List Char → List Char → List (List Char)
  | cur, [] => [cur.reverse]
  | cur, '\r' :: '\n' :: rest => cur.reverse :: splitLinesAux [] rest
  | cur, '\r' :: rest => cur.reverse :: splitLinesAux [] rest
  | cur, '\n' :: rest => cur.reverse :: splitLinesAux [] rest
  | cur, c :: rest => splitLinesAux (c :: cur) rest

/-- Split a text into lines, as iterating over a Python text-mode file
does (universal newlines; the terminators themselves are dropped, which is
equivalent for this program because every line is stripped before use). -/
def splitLines (text : List Char) : List (List Char) :=
  splitLinesAux [] text

/-- Python `dict[str, str]` preserving insertion order, modelled as an
association list. -/
abbrev KVMap := List (List Char × List Char)

/-- Python `key in dict`. -/
def containsKey (m : KVMap) (k : List Char) : Bool :=
  m.any (fun p => p.1 == k)

/-- Python `dict[key] = value`: overwrite in place when the key is
present (keeping its position), otherwise append at the end (insertion
order). -/
def setKey (m : KVMap) (k v : List Char) : KVMap :=
  if containsKey m k then m.map (fun p => if p.1 = k then (k, v) else p)
  else m ++ [(k, v)]

/-- Python `dict.get(key, default)`. -/
def getD (m : KVMap) (k d : List Char) : List Char :=
  match m.find? (fun p => p.1 == k) with
  | some p => p.2
  | none => d

/-- Loop body of `INIParser.parse` for one raw line: strip it, skip blank
lines and `#`/`;` comments, otherwise split at the first `=`
(`str.partition`), strip key and value, and store the pair when the key is
non-empty. -/
def parseLine (data : KVMap) (rawLine : List Char) : KVMap :=
  let line := pyStrip rawLine
  if line = [] then data
  else if line.head? = some '#' ∨ line.head? = some ';' then data
  else if '=' ∈ line then
    let key := pyStrip (line.takeWhile (fun c => c != '='))
    let value := pyStrip ((line.dropWhile (fun c => c != '=')).tail)
    if key = [] then data else setKey data key value
  else data

/-- Model of `INIParser.parse` on the decoded text of the file (the
UTF-8/BOM byte-level decoding is outside this model: its input here is the
already decoded character sequence). -/
def INIParser.parse (text : List Char) : KVMap :=
  (splitLines text).foldl parseLine []

/-- Model of the newline translation performed by
`open(..., newline='\r\n')`: every `'\n'` character written to the file is
emitted as `"\r\n"`. -/
def nlTranslate (s : List Char) : List Char :=
  (s.map (fun c => if c = '\n' then ['\r', '\n'] else [c])).flatten

/-- Model of `INIParser.write`: one `key=value` line per entry, in map
order, each written with `f.write(f"{key}={value}\n")` through the CRLF
newline translation.  The result is the full text of the produced file. -/
def INIParser.write (data : KVMap) : List Char :=
  nlTranslate ((data.map (fun p => p.1 ++ '=' :: p.2 ++ ['\n'])).flatten)

/-- The `ValidationLevel` enum of the source. -/
inductive ValidationLevel
  | ERROR
  | WARNING
  | INFO
  deriving DecidableEq

/-- The `ValidationResult` dataclass of the source. -/
structure ValidationResult where
  level : ValidationLevel
  message : List Char
  key : Option (List Char)
  deriving DecidableEq

/-- The `Translation` dataclass of the source. -/
structure Translation where
  key : List Char
  original : List Char
  translated : List Char
  category : List Char := "general".toList
  comment : List Char := "".toList
  deriving DecidableEq

/-- Fuel-indexed scanner implementing
`re.findall(r'\x7b[^\x7d]+\x7d|%[sd]', s)`: at each position first try to
match a brace-delimited token (at least one non-`\x7d` character between
the braces), then a `%s`/`%d` directive, else advance one character;
matches are non-overlapping and scanning resumes after each match.  One
unit of fuel is spent per recursive step and every step consumes at least
one character, so `fuel = s.length` suffices (see `findVars`). -/
def findVarsF : Nat → List Char → List (List Char)
  | 0, _ => []
  | _ + 1, [] => []
  | fuel + 1, c :: rest =>
    if c = '{' then
      let body := rest.takeWhile (fun x => x != '}')
      let rest2 := rest.dropWhile (fun x => x != '}')
      if body.isEmpty then findVarsF fuel rest
      else if rest2.isEmpty then findVarsF fuel rest
      else ('{' :: body ++ ['}']) :: findVarsF fuel rest2.tail
    else if c = '%' then
      if rest.head? = some 's' then ['%', 's'] :: findVarsF fuel rest.tail
      else if rest.head? = some 'd' then ['%', 'd'] :: findVarsF fuel rest.tail
      else findVarsF fuel rest
    else findVarsF fuel rest

/-- All placeholder tokens of a string, in scan order (with duplicates),
as `re.findall` returns them. -/
def findVars (s : List Char) : List (List Char) :=
  findVarsF s.length s

/-- Python set inclusion of two token lists read as sets. -/
def tokSubsetB (a b : List (List Char)) : Bool :=
  a.all (fun x => b.contains x)

/-- Python `set(a) == set(b)` on token lists. -/
def tokSetEqB (a b : List (List Char)) : Bool :=
  tokSubsetB a b && tokSubsetB b a

/-- Python `set(findall(original)) - set(findall(translated))`.  A Python
set prints its elements in an unspecified order; the model enumerates the
difference in a canonical order (deduplicated scan order). -/
def missingVars (original translated : List Char) : List (List Char) :=
  ((findVars original).dedup).filter (fun x => !((findVars translated).contains x))

/-- Python `set(findall(translated)) - set(findall(original))`, with the
same canonical enumeration order as `missingVars`. -/
def extraVars (original translated : List Char) : List (List Char) :=
  ((findVars translated).dedup).filter (fun x => !((findVars original).contains x))

/-- The single-quote character, written by code point to keep quotes out
of the source literals. -/
def squote : Char := Char.ofNat 39

/-- The opening brace character, by code point. -/
def lbrace : Char := Char.ofNat 123

/-- The closing brace character, by code point. -/
def rbrace : Char := Char.ofNat 125

/-- Rendering of a Python `set` of strings, e.g. a one-element token set
prints as a brace-enclosed quoted token.  Python's element order is
unspecified; the model renders the canonical enumeration order of
`missingVars`/`extraVars`. -/
def pySetRepr (toks : List (List Char)) : List Char :=
  lbrace :: (List.intercalate (", ".toList) (toks.map (fun t => squote :: t ++ [squote]))) ++ [rbrace]

/-- The message built by `TranslationValidator._check_variables` when the
token sets differ: the header naming the key, then a `Missing:` line when
some tokens are missing, then an `Extra:` line when some are extra. -/
def varMismatchMessage (key : List Char) (missing extra : List (List Char)) : List Char :=
  ("Variable mismatch in ".toList ++ squote :: key ++ [squote])
    ++ (if missing = [] then [] else "\n  Missing: ".toList ++ pySetRepr missing)
    ++ (if extra = [] then [] else "\n  Extra: ".toList ++ pySetRepr extra)

/-- Model of `TranslationValidator._check_variables`. -/
def TranslationValidator.check_variables (trans : Translation) (original : List Char) : List ValidationResult :=
  if tokSetEqB (findVars original) (findVars trans.translated) then []
  else
    [{ level := ValidationLevel.ERROR
       message := varMismatchMessage trans.key (missingVars original trans.translated)
         (extraVars original trans.translated)
       key := some trans.key }]

/-- The warning message of `TranslationValidator._check_length`, citing
both character counts. -/
def lengthMessage (key : List Char) (translatedLen originalLen : Nat) : List Char :=
  (squote :: key ++ [squote]) ++ " is much longer (".toList
    ++ (Nat.repr translatedLen).toList ++ " vs ".toList ++ (Nat.repr originalLen).toList
    ++ " chars) - may not fit in UI".toList

/-- Model of `TranslationValidator._check_length`.  The source compares
`len(trans.translated) > len(original) * 1.5`; `1.5` is exactly `3 / 2` in
binary floating point and the lengths are machine integers, so the float
comparison coincides with the exact integer comparison
`3 * len(original) < 2 * len(translated)` used here (proved equivalent to
the rational statement in the length-check theorem). -/
def TranslationValidator.check_length (trans : Translation) (original : List Char) : List ValidationResult :=
  if 3 * original.length < 2 * trans.translated.length then
    [{ level := ValidationLevel.WARNING
       message := lengthMessage trans.key trans.translated.length original.length
       key := some trans.key }]
  else []

/-- Python substring containment `pat in s`. -/
def strContainsSub : List Char → List Char → Bool
  | [], pat => pat.isEmpty
  | c :: rest, pat => pat.isPrefixOf (c :: rest) || strContainsSub rest pat

/-- Model of `TranslationValidator._check_special_chars`: flag a literal
newline character or the two-character escape sequence backslash-`n`. -/
def TranslationValidator.check_special_chars (trans : Translation) : List ValidationResult :=
  if strContainsSub trans.translated ['\\', 'n'] || strContainsSub trans.translated ['\n'] then
    [{ level := ValidationLevel.INFO
       message := (squote :: trans.key ++ [squote]) ++ " contains newlines - verify formatting".toList
       key := some trans.key }]
  else []

/-- Model of the condition under which `str.encode('utf-8')` raises
`UnicodeEncodeError`: the string holds an unpaired surrogate code point.
A Lean `Char` is a valid Unicode scalar value and can never lie in the
surrogate range, so in this model the check can never fire; that mirrors
the fact that a well-formed text never trips the encoding check. -/
def isUnencodable (c : Char) : Bool :=
  0xD800 ≤ c.toNat && c.toNat ≤ 0xDFFF

/-- Model of `TranslationValidator._check_encoding`. -/
def TranslationValidator.check_encoding (trans : Translation) : List ValidationResult :=
  if trans.translated.any isUnencodable then
    [{ level := ValidationLevel.ERROR
       message := (squote :: trans.key ++ [squote]) ++ " contains character that can not be encoded".toList
       key := some trans.key }]
  else []

/-- Model of `TranslationValidator.validate`: start from an empty result
list and extend it with the results of the four checks, in source order. -/
def TranslationValidator.validate (translation : Translation) (original_value : List Char) : List ValidationResult :=
  ((([] ++ TranslationValidator.check_variables translation original_value)
    ++ TranslationValidator.check_length translation original_value)
    ++ TranslationValidator.check_special_chars translation)
    ++ TranslationValidator.check_encoding translation

/-- One merge step of `TranslationMerger.merge` applied to the map alone:
if the record's key is present, overwrite its value with the translated
text; otherwise leave the map unchanged. -/
def applyTranslation (merged : KVMap) (trans : Translation) : KVMap :=
  if containsKey merged trans.key then
    merged.map (fun p => if p.1 = trans.key then (trans.key, trans.translated) else p)
  else merged

/-- Loop body of the apply phase of `TranslationMerger.merge`, acting on
the state (merged map, applied count, not-found key list). -/
def mergeStep (st : KVMap × Nat × List (List Char)) (trans : Translation) : KVMap × Nat × List (List Char) :=
  if containsKey st.1 trans.key then
    (st.1.map (fun p => if p.1 = trans.key then (trans.key, trans.translated) else p),
     st.2.1 + 1, st.2.2)
  else (st.1, st.2.1, st.2.2 ++ [trans.key])

/-- Everything `TranslationMerger.merge` produces: the merged map and the
validation results (its return value), the applied count and not-found
list (reported to the console), and the text written to the output file. -/
structure MergeOutcome where
  merged_data : KVMap
  validation_results : List ValidationResult
  applied : Nat
  not_found : List (List Char)
  output_text : List Char
  deriving DecidableEq

/-- Model of `TranslationMerger.merge` after the source file has been
parsed: validate (when requested) every record against the original value
looked up in the source map (empty string when absent), then apply all
records to a copy of the source map, then serialize the merged map. -/
def TranslationMerger.mergeData (source_data : KVMap) (translations : List Translation)
    (validate : Bool) : MergeOutcome :=
  let all_validation_results :=
    if validate then
      translations.flatMap
        (fun trans => TranslationValidator.validate trans (getD source_data trans.key []))
    else []
  let final := translations.foldl mergeStep (source_data, 0, [])
  { merged_data := final.1
    validation_results := all_validation_results
    applied := final.2.1
    not_found := final.2.2
    output_text := INIParser.write final.1 }

/-- Model of `TranslationMerger.merge` from the source file's text. -/
def TranslationMerger.merge (source_text : List Char) (translations : List Translation)
    (validate : Bool) : MergeOutcome :=
  TranslationMerger.mergeData (INIParser.parse source_text) translations validate

/-- A backup file in the backup directory, modelled by the stem of the
file it backs up and the wall-clock timestamp of the `create_backup` call.
This models the on-disk name `stem_YYYYMMDD_HHMMSS.suffix` together with
the file's modification time; calls are assumed at least a second apart
and the backed-up file rewritten between calls, so names are distinct and
modification times strictly increase with creation order. -/
structure BackupFile where
  stem : List Char
  time : Nat
  deriving DecidableEq

/-- Insert an entry into a list sorted by time descending, after all
entries with a time not smaller than it (a stable descending sort step,
as Python `sorted(..., reverse=True)` is stable). -/
def insertByTimeDesc (e : BackupFile) : List BackupFile → List BackupFile
  | [] => [e]
  | x :: xs => if x.time < e.time then e :: x :: xs else x :: insertByTimeDesc e xs

/-- Stable sort by modification time, most recent first, as
`sorted(..., key=lambda p: p.stat().st_mtime, reverse=True)`. -/
def sortByTimeDesc : List BackupFile → List BackupFile
  | [] => []
  | x :: xs => insertByTimeDesc x (sortByTimeDesc xs)

/-- Model of `BackupManager._cleanup_old_backups`: glob the entries whose
stem matches, sort them by modification time descending, and delete every
entry beyond the `keep` most recent. -/
def BackupManager.cleanup_old_backups (dir : List BackupFile) (file_stem : List Char)
    (keep : Nat) : List BackupFile :=
  let kept := (sortByTimeDesc (dir.filter (fun e => e.stem == file_stem))).take keep
  dir.filter (fun e => !(e.stem == file_stem) || kept.contains e)

/-- Model of `BackupManager.create_backup` for an existing file: copy it
into the backup directory under its timestamped name (overwriting an
identically named entry, as a filesystem copy does), then prune to the 5
most recent backups for that stem. -/
def BackupManager.create_backup (dir : List BackupFile) (file_stem : List Char)
    (now : Nat) : List BackupFile :=
  let b : BackupFile := { stem := file_stem, time := now }
  BackupManager.cleanup_old_backups (dir.filter (fun e => !(e == b)) ++ [b]) file_stem 5

/-! Helper lemmas about trimming and the key-value map. -/

/-- Membership formulation of `containsKey`. -/
theorem containsKey_iff (m : KVMap) (k : List Char) :
    containsKey m k = true ↔ k ∈ m.map Prod.fst := by
  simp [containsKey, List.any_eq_true, beq_iff_eq]

/-- A list left fixed by `dropWhile` has a head failing the predicate. -/
theorem head_false_of_dropWhile_eq_self {p : Char → Bool} {a : Char} {t : List Char}
    (h : List.dropWhile p (a :: t) = a :: t) : p a = false := by
  by_contra hpa
  have hpa2 : p a = true := by
    cases hv : p a
    · exact absurd hv hpa
    · rfl
  rw [List.dropWhile_cons, if_pos hpa2] at h
  have hle := List.IsSuffix.length_le (List.dropWhile_suffix (l := t) p)
  rw [h] at hle
  simp at hle

/-- Splitting a self-trimmed list into its two one-sided trims. -/
theorem pyStrip_eq_self_parts {l : List Char} (h : pyStrip l = l) :
    List.dropWhile pyIsSpace l = l ∧ List.rdropWhile pyIsSpace l = l := by
  have hs : List.dropWhile pyIsSpace l <:+ l := List.dropWhile_suffix pyIsSpace
  have hp : List.rdropWhile pyIsSpace (List.dropWhile pyIsSpace l) <+:
      List.dropWhile pyIsSpace l := List.rdropWhile_prefix pyIsSpace _
  have hlen1 := List.IsSuffix.length_le hs
  have hlen2 := List.IsPrefix.length_le hp
  have hL : (pyStrip l).length = l.length := by rw [h]
  have hdlen : (List.dropWhile pyIsSpace l).length = l.length := by
    simp only [pyStrip] at hL
    omega
  have hd : List.dropWhile pyIsSpace l = l := List.IsSuffix.eq_of_length hs hdlen
  refine ⟨hd, ?_⟩
  have := h
  simp only [pyStrip, hd] at this
  exact this

/-- The left trim of a stripped list is the identity. -/
theorem dropWhile_pyStrip (l : List Char) :
    List.dropWhile pyIsSpace (pyStrip l) = pyStrip l := by
  cases h : pyStrip l with
  | nil => rfl
  | cons a t =>
    have hp : pyStrip l <+: List.dropWhile pyIsSpace l := List.rdropWhile_prefix pyIsSpace _
    obtain ⟨r, hr⟩ := hp
    have hne : List.dropWhile pyIsSpace l ≠ [] := by
      rw [← hr, h]
      simp
    have hhead := List.head_dropWhile_not pyIsSpace l hne
    have hh2 : (List.dropWhile pyIsSpace l).head? = some a := by
      rw [← hr, h]
      rfl
    rw [List.head?_eq_head hne] at hh2
    have hfalse : pyIsSpace a = false := by
      have := Option.some.inj hh2
      rw [← this]
      exact hhead
    rw [List.dropWhile_cons, hfalse]
    simp

/-- Python `strip` is idempotent. -/
theorem pyStrip_idem (l : List Char) : pyStrip (pyStrip l) = pyStrip l := by
  show List.rdropWhile pyIsSpace (List.dropWhile pyIsSpace (pyStrip l)) = pyStrip l
  rw [dropWhile_pyStrip]
  show List.rdropWhile pyIsSpace (List.rdropWhile pyIsSpace (List.dropWhile pyIsSpace l)) = _
  exact List.rdropWhile_idempotent pyIsSpace _

/-- Updating a key keeps the map's key list when the key is present and
appends it when absent; either way the parse invariant is preserved. -/
theorem setKey_preserves (m : KVMap) (k v : List Char)
    (hm1 : (m.map Prod.fst).Nodup) (hm2 : ∀ p ∈ m, p.1 ≠ [] ∧ pyStrip p.1 = p.1)
    (hk1 : k ≠ []) (hk2 : pyStrip k = k) :
    ((setKey m k v).map Prod.fst).Nodup ∧
      ∀ p ∈ setKey m k v, p.1 ≠ [] ∧ pyStrip p.1 = p.1 := by
  unfold setKey
  by_cases hc : containsKey m k = true
  case pos =>
    rw [if_pos hc]
    constructor
    · rw [List.map_map]
      have : ∀ p ∈ m, (Prod.fst ∘ fun p => if p.1 = k then (k, v) else p) p = Prod.fst p := by
        intro p hp
        by_cases hpk : p.1 = k
        · simp [Function.comp, hpk]
        · simp [Function.comp, hpk]
      rw [List.map_congr_left this]
      exact hm1
    · intro q hq
      rw [List.mem_map] at hq
      obtain ⟨p, hp, rfl⟩ := hq
      by_cases hpk : p.1 = k
      · simp only [if_pos hpk]
        exact ⟨hk1, hk2⟩
      · simp only [if_neg hpk]
        exact hm2 p hp
  case neg =>
    rw [if_neg hc]
    constructor
    · rw [List.map_append, List.nodup_append]
      refine ⟨hm1, by simp, ?_⟩
      simp only [List.map_cons, List.map_nil, List.disjoint_singleton]
      intro hmem
      rw [← containsKey_iff] at hmem
      exact hc hmem
    · intro p hp
      rw [List.mem_append] at hp
      cases hp with
      | inl h => exact hm2 p h
      | inr h =>
        simp only [List.mem_singleton] at h
        subst h
        exact ⟨hk1, hk2⟩

/-- Each line processed by the parser preserves the parse invariant. -/
theorem parseLine_preserves (m : KVMap) (raw : List Char)
    (hm1 : (m.map Prod.fst).Nodup) (hm2 : ∀ p ∈ m, p.1 ≠ [] ∧ pyStrip p.1 = p.1) :
    ((parseLine m raw).map Prod.fst).Nodup ∧
      ∀ p ∈ parseLine m raw, p.1 ≠ [] ∧ pyStrip p.1 = p.1 := by
  unfold parseLine
  dsimp only
  split_ifs with h1 h2 h3 h4
  · exact ⟨hm1, hm2⟩
  · exact ⟨hm1, hm2⟩
  · exact ⟨hm1, hm2⟩
  · exact setKey_preserves m _ _ hm1 hm2 h4 (pyStrip_idem _)
  · exact ⟨hm1, hm2⟩

/-- Claim C8: `INIParser.parse` trims each line, skips blank lines and
lines starting with `#` or `;`, splits the rest at the first equals sign,
trims key and value and stores only non-empty keys, overwriting
already-seen keys in place; consequently every map it returns satisfies
the `KeyValueStore` invariant: keys are unique, non-empty and
whitespace-trimmed (values are unconstrained and may be empty). -/
theorem parse_satisfies_invariant (text : List Char) :
    ((INIParser.parse text).map Prod.fst).Nodup ∧
      ∀ p ∈ INIParser.parse text, p.1 ≠ [] ∧ pyStrip p.1 = p.1 := by
  have H : ∀ (lines : List (List Char)) (m : KVMap),
      (m.map Prod.fst).Nodup → (∀ p ∈ m, p.1 ≠ [] ∧ pyStrip p.1 = p.1) →
      ((lines.foldl parseLine m).map Prod.fst).Nodup ∧
        ∀ p ∈ lines.foldl parseLine m, p.1 ≠ [] ∧ pyStrip p.1 = p.1 := by
    intro lines
    induction lines with
    | nil =>
      intro m h1 h2
      exact ⟨h1, h2⟩
    | cons l ls ih =>
      intro m h1 h2
      have h3 := parseLine_preserves m l h1 h2
      exact ih (parseLine m l) h3.1 h3.2
  exact H (splitLines text) [] (by simp) (by simp)

/-- Witness for the parse invariant at a concrete file text. -/
theorem parse_satisfies_invariant_witness :
    (['a'], ['1']) ∈ INIParser.parse ("a=1".toList) ∧
      ['a'] ≠ [] ∧ pyStrip ['a'] = ['a'] :=
  ⟨by decide, (parse_satisfies_invariant ("a=1".toList)).2 (['a'], ['1']) (by decide)⟩

/-! Round-trip machinery for write followed by parse. -/

/-- Conditions on a key under which its written line survives the parse
round trip: non-empty, trimmed, no equals sign, no line-break characters,
and not starting like a comment. -/
abbrev writableKey (k : List Char) : Prop :=
  k ≠ [] ∧ pyStrip k = k ∧ '=' ∉ k ∧ '\r' ∉ k ∧ '\n' ∉ k ∧
    k.head? ≠ some '#' ∧ k.head? ≠ some ';'

/-- Conditions on a value under which its written line survives the parse
round trip: trimmed and free of line-break characters. -/
abbrev writableValue (v : List Char) : Prop :=
  pyStrip v = v ∧ '\r' ∉ v ∧ '\n' ∉ v

/-- The newline translation distributes over concatenation. -/
theorem nlTranslate_append (a b : List Char) :
    nlTranslate (a ++ b) = nlTranslate a ++ nlTranslate b := by
  simp [nlTranslate]

/-- The newline translation fixes newline-free strings. -/
theorem nlTranslate_no_nl (a : List Char) (h : '\n' ∉ a) : nlTranslate a = a := by
  induction a with
  | nil => rfl
  | cons c t ih =>
    have hc : c ≠ '\n' := by
      intro hc
      exact h (hc ▸ List.mem_cons_self c t)
    have ht : '\n' ∉ t := fun hm => h (List.mem_cons_of_mem c hm)
    simp only [nlTranslate, List.map_cons, List.flatten_cons, if_neg hc]
    have := ih ht
    simp only [nlTranslate] at this
    rw [this]
    rfl

/-- On maps whose keys and values contain no newline character, `write`
produces exactly the CRLF-terminated `key=value` lines. -/
theorem write_eq_crlf_lines (m : KVMap)
    (h : ∀ p ∈ m, '\n' ∉ p.1 ∧ '\n' ∉ p.2) :
    INIParser.write m = (m.map (fun p => p.1 ++ '=' :: p.2 ++ ['\r', '\n'])).flatten := by
  induction m with
  | nil => rfl
  | cons q t ih =>
    have hq := h q (List.mem_cons_self q t)
    have ht : ∀ p ∈ t, '\n' ∉ p.1 ∧ '\n' ∉ p.2 := fun p hp => h p (List.mem_cons_of_mem q hp)
    unfold INIParser.write
    simp only [List.map_cons, List.flatten_cons]
    rw [nlTranslate_append]
    have hline : nlTranslate (q.1 ++ '=' :: q.2 ++ ['\n']) = q.1 ++ '=' :: q.2 ++ ['\r', '\n'] := by
      have hsplit : q.1 ++ '=' :: q.2 ++ ['\n'] = (q.1 ++ '=' :: q.2) ++ ['\n'] := by
        simp [List.append_assoc]
      have hsplit2 : q.1 ++ '=' :: q.2 ++ ['\r', '\n'] = (q.1 ++ '=' :: q.2) ++ ['\r', '\n'] := by
        simp [List.append_assoc]
      rw [hsplit, hsplit2, nlTranslate_append]
      have hno : '\n' ∉ q.1 ++ '=' :: q.2 := by
        intro hmem
        rcases List.mem_append.mp hmem with h1 | h2
        · exact hq.1 h1
        · rcases List.mem_cons.mp h2 with h3 | h4
          · cases h3
          · exact hq.2 h4
      rw [nlTranslate_no_nl _ hno]
      rfl
    rw [hline]
    have := ih ht
    unfold INIParser.write at this
    rw [this]

/-- Scanning a terminator-free line followed by a CRLF terminator yields
that line and continues with the rest of the text. -/
theorem splitLinesAux_line (line : List Char)
    (h : ∀ c ∈ line, c ≠ '\r' ∧ c ≠ '\n') :
    ∀ (cur rest : List Char),
      splitLinesAux cur (line ++ '\r' :: '\n' :: rest) =
        (cur.reverse ++ line) :: splitLinesAux [] rest := by
  induction line with
  | nil =>
    intro cur rest
    simp only [List.nil_append, List.append_nil]
    rfl
  | cons c cs ih =>
    intro cur rest
    have hc := h c (List.mem_cons_self c cs)
    have hcs : ∀ x ∈ cs, x ≠ '\r' ∧ x ≠ '\n' := fun x hx => h x (List.mem_cons_of_mem c hx)
    simp only [List.cons_append]
    have hstep : splitLinesAux cur (c :: (cs ++ '\r' :: '\n' :: rest)) =
        splitLinesAux (c :: cur) (cs ++ '\r' :: '\n' :: rest) := by
      simp [splitLinesAux, hc.1, hc.2]
    rw [hstep, ih hcs (c :: cur) rest]
    simp [List.append_assoc]

/-- Splitting the text written for a line-break-free map gives back its
`key=value` lines followed by one empty trailing line. -/
theorem splitLines_write (m : KVMap)
    (h : ∀ p ∈ m, ('\r' ∉ p.1 ∧ '\n' ∉ p.1) ∧ ('\r' ∉ p.2 ∧ '\n' ∉ p.2)) :
    splitLines (INIParser.write m) = (m.map (fun p => p.1 ++ '=' :: p.2)) ++ [[]] := by
  rw [write_eq_crlf_lines m (fun p hp => ⟨(h p hp).1.2, (h p hp).2.2⟩)]
  unfold splitLines
  induction m with
  | nil => rfl
  | cons q t ih =>
    have hq := h q (List.mem_cons_self q t)
    have ht : ∀ p ∈ t, ('\r' ∉ p.1 ∧ '\n' ∉ p.1) ∧ ('\r' ∉ p.2 ∧ '\n' ∉ p.2) :=
      fun p hp => h p (List.mem_cons_of_mem q hp)
    simp only [List.map_cons, List.flatten_cons]
    have hshape : q.1 ++ '=' :: q.2 ++ ['\r', '\n'] ++ (t.map (fun p => p.1 ++ '=' :: p.2 ++ ['\r', '\n'])).flatten =
        (q.1 ++ '=' :: q.2) ++ '\r' :: '\n' :: (t.map (fun p => p.1 ++ '=' :: p.2 ++ ['\r', '\n'])).flatten := by
      simp [List.append_assoc]
    rw [hshape]
    have hline : ∀ c ∈ q.1 ++ '=' :: q.2, c ≠ '\r' ∧ c ≠ '\n' := by
      intro c hc
      rcases List.mem_append.mp hc with h1 | h2
      · constructor
        · intro he
          exact hq.1.1 (he ▸ h1)
        · intro he
          exact hq.1.2 (he ▸ h1)
      · rcases List.mem_cons.mp h2 with h3 | h4
        · subst h3
          exact ⟨by decide, by decide⟩
        · constructor
          · intro he
            exact hq.2.1 (he ▸ h4)
          · intro he
            exact hq.2.2 (he ▸ h4)
    rw [splitLinesAux_line (q.1 ++ '=' :: q.2) hline [] _]
    rw [ih ht]
    simp

/-- The right trim fixes any list ending in a non-trimmable non-empty
suffix that the trim already fixes. -/
theorem rdropWhile_append_right {p : Char → Bool} (k r : List Char)
    (hr : List.rdropWhile p r = r) (hrne : r ≠ []) :
    List.rdropWhile p (k ++ r) = k ++ r := by
  rw [List.rdropWhile_eq_self_iff] at hr ⊢
  intro hl
  have hklr : (k ++ r).getLast hl = r.getLast hrne := by
    rw [List.getLast_append]
    have hremp : ¬(r.isEmpty = true) := by
      simp [List.isEmpty_iff, hrne]
    rw [dif_neg hremp]
  rw [hklr]
  exact hr hrne

/-- Stripping fixes a well-formed `key=value` line. -/
theorem pyStrip_line (k v : List Char) (hk1 : k ≠ []) (hk2 : pyStrip k = k)
    (hv : pyStrip v = v) :
    pyStrip (k ++ '=' :: v) = k ++ '=' :: v := by
  obtain ⟨hkd, _⟩ := pyStrip_eq_self_parts hk2
  obtain ⟨_, hvr⟩ := pyStrip_eq_self_parts hv
  have h1 : List.dropWhile pyIsSpace (k ++ '=' :: v) = k ++ '=' :: v := by
    cases k with
    | nil => exact absurd rfl hk1
    | cons a t =>
      have ha : pyIsSpace a = false := head_false_of_dropWhile_eq_self hkd
      rw [List.cons_append, List.dropWhile_cons, ha]
      simp
  have h2 : List.rdropWhile pyIsSpace (k ++ '=' :: v) = k ++ '=' :: v := by
    cases v with
    | nil => exact rdropWhile_append_right k ['='] (by decide) (by decide)
    | cons b w =>
      have hassoc : k ++ '=' :: b :: w = (k ++ ['=']) ++ (b :: w) := by
        simp [List.append_assoc]
      rw [hassoc]
      exact rdropWhile_append_right (k ++ ['=']) (b :: w) hvr (by simp)
  show List.rdropWhile pyIsSpace (List.dropWhile pyIsSpace (k ++ '=' :: v)) = _
  rw [h1, h2]

/-- The key part of a well-formed line is everything before the first
equals sign. -/
theorem takeWhile_line (k v : List Char) (hk : '=' ∉ k) :
    List.takeWhile (fun c => c != '=') (k ++ '=' :: v) = k := by
  induction k with
  | nil => simp [List.takeWhile_cons]
  | cons a t ih =>
    have ha : a ≠ '=' := by
      intro he
      exact hk (he ▸ List.mem_cons_self a t)
    have ht : '=' ∉ t := fun hm => hk (List.mem_cons_of_mem a hm)
    rw [List.cons_append, List.takeWhile_cons]
    simp only [bne_iff_ne, ne_eq, ha, not_false_eq_true, if_pos]
    rw [ih ht]

/-- The value part of a well-formed line is everything after the first
equals sign. -/
theorem dropWhile_line (k v : List Char) (hk : '=' ∉ k) :
    List.dropWhile (fun c => c != '=') (k ++ '=' :: v) = '=' :: v := by
  induction k with
  | nil => simp [List.dropWhile_cons]
  | cons a t ih =>
    have ha : a ≠ '=' := by
      intro he
      exact hk (he ▸ List.mem_cons_self a t)
    have ht : '=' ∉ t := fun hm => hk (List.mem_cons_of_mem a hm)
    rw [List.cons_append, List.dropWhile_cons]
    simp only [bne_iff_ne, ne_eq, ha, not_false_eq_true, if_pos]
    exact ih ht

/-- Parsing the written line of a writable pair stores exactly that
pair. -/
theorem parseLine_line (m : KVMap) (k v : List Char)
    (hk : writableKey k) (hv : writableValue v) :
    parseLine m (k ++ '=' :: v) = setKey m k v := by
  obtain ⟨hk1, hk2, hkeq, _, _, hkh1, hkh2⟩ := hk
  obtain ⟨hv1, _, _⟩ := hv
  unfold parseLine
  dsimp only
  rw [pyStrip_line k v hk1 hk2 hv1]
  have hne : ¬(k ++ '=' :: v = []) := by
    intro he
    have := List.append_eq_nil.mp he
    exact hk1 this.1
  rw [if_neg hne]
  have hhead : (k ++ '=' :: v).head? = k.head? := by
    cases k with
    | nil => exact absurd rfl hk1
    | cons a t => rfl
  have hcomm : ¬((k ++ '=' :: v).head? = some '#' ∨ (k ++ '=' :: v).head? = some ';') := by
    rw [hhead]
    rintro (hc | hc)
    · exact hkh1 hc
    · exact hkh2 hc
  rw [if_neg hcomm]
  have hmem : '=' ∈ k ++ '=' :: v := List.mem_append_right k (List.mem_cons_self _ _)
  rw [if_pos hmem]
  rw [takeWhile_line k v hkeq, dropWhile_line k v hkeq]
  simp only [List.tail_cons]
  rw [hk2, hv1]
  rw [if_neg hk1]

/-- Setting an absent key appends the pair. -/
theorem setKey_absent (m : KVMap) (k v : List Char) (h : k ∉ m.map Prod.fst) :
    setKey m k v = m ++ [(k, v)] := by
  unfold setKey
  rw [if_neg]
  intro hc
  exact h ((containsKey_iff m k).mp hc)

/-- Folding the parser over the written lines of a writable map with
fresh keys appends the map to the accumulator. -/
theorem foldl_parseLine_lines (m : KVMap) :
    ∀ acc : KVMap,
      (∀ p ∈ m, writableKey p.1 ∧ writableValue p.2) →
      (((acc ++ m).map Prod.fst).Nodup) →
      (m.map (fun p => p.1 ++ '=' :: p.2)).foldl parseLine acc = acc ++ m := by
  induction m with
  | nil =>
    intro acc _ _
    simp
  | cons q t ih =>
    intro acc hgood hnodup
    have hq := hgood q (List.mem_cons_self q t)
    have hknotin : q.1 ∉ acc.map Prod.fst := by
      rw [List.map_append, List.nodup_append] at hnodup
      intro hin
      exact hnodup.2.2 hin (by simp)
    simp only [List.map_cons, List.foldl_cons]
    rw [parseLine_line acc q.1 q.2 hq.1 hq.2, setKey_absent acc q.1 q.2 hknotin]
    have heta : (q.1, q.2) = q := rfl
    have hrearr : acc ++ [q] ++ t = acc ++ q :: t := by
      simp
    rw [heta]
    have := ih (acc ++ [q]) (fun p hp => hgood p (List.mem_cons_of_mem q hp))
      (by rw [hrearr]; exact hnodup)
    rw [this, hrearr]

/-- Claim C1 (amended): parsing the file produced by `write` reproduces
the map, for maps whose keys are unique, non-empty, whitespace-trimmed,
free of the equals sign and of line-break characters and not starting
with a comment marker, and whose values are whitespace-trimmed and free
of line-break characters.  (The extra conditions beyond the claim are
forced: see the counterexample, where an untrimmed value breaks the
round trip.) -/
theorem write_parse_roundtrip (m : KVMap)
    (hnodup : (m.map Prod.fst).Nodup)
    (hgood : ∀ p ∈ m, writableKey p.1 ∧ writableValue p.2) :
    INIParser.parse (INIParser.write m) = m := by
  unfold INIParser.parse
  rw [splitLines_write m (fun p hp =>
    ⟨⟨((hgood p hp).1).2.2.2.1, ((hgood p hp).1).2.2.2.2.1⟩,
     ⟨((hgood p hp).2).2.1, ((hgood p hp).2).2.2⟩⟩)]
  rw [List.foldl_append]
  rw [foldl_parseLine_lines m [] hgood (by simpa using hnodup)]
  simp only [List.nil_append, List.foldl_cons, List.foldl_nil]
  have hempty : parseLine m [] = m := by
    unfold parseLine
    dsimp only
    rw [if_pos]
    rfl
  exact hempty

/-- Counterexample to claim C1 as stated: the map with the single key
`a` (unique, non-empty, trimmed) and the arbitrary value consisting of a
space followed by `x` does not survive the round trip, because `parse`
trims the value. -/
theorem write_parse_roundtrip_counterexample :
    ((([(['a'], [' ', 'x'])] : KVMap).map Prod.fst).Nodup ∧
      (∀ p ∈ ([(['a'], [' ', 'x'])] : KVMap), p.1 ≠ [] ∧ pyStrip p.1 = p.1)) ∧
    INIParser.parse (INIParser.write [(['a'], [' ', 'x'])]) ≠ [(['a'], [' ', 'x'])] := by
  decide

/-- Witness for the amended round trip at a concrete two-entry map. -/
theorem write_parse_roundtrip_witness :
    INIParser.parse (INIParser.write [(['a'], ['x']), (['b'], [])]) =
      [(['a'], ['x']), (['b'], [])] :=
  write_parse_roundtrip [(['a'], ['x']), (['b'], [])] (by decide) (by decide)

/-- Claim C4: `validate` always runs the four checks in the fixed order
variable-placeholder, length, special-character, encoding, and returns
the concatenation of all their diagnostics (accumulated, never
short-circuited after an earlier failure). -/
theorem validate_runs_all_checks (t : Translation) (o : List Char) :
    TranslationValidator.validate t o =
      TranslationValidator.check_variables t o ++ TranslationValidator.check_length t o ++
        TranslationValidator.check_special_chars t ++ TranslationValidator.check_encoding t ∧
    (TranslationValidator.validate t o).length =
      (TranslationValidator.check_variables t o).length +
        (TranslationValidator.check_length t o).length +
        (TranslationValidator.check_special_chars t).length +
        (TranslationValidator.check_encoding t).length := by
  constructor
  · rfl
  · simp only [TranslationValidator.validate, List.nil_append, List.length_append]

/-- Claim C3: the length check fires exactly when the translation is
more than one-and-a-half times the original (the float comparison of the
source is exactly the integer comparison used in the model, first
conjunct), it then emits exactly one warning whose message cites both
character counts, and for a 2-character original it fires exactly on
translations of 4 or more characters. -/
theorem check_length_spec (t : Translation) (o : List Char) :
    (3 * o.length < 2 * t.translated.length ↔
      (o.length : ℚ) * (3 / 2) < (t.translated.length : ℚ)) ∧
    (TranslationValidator.check_length t o ≠ [] ↔
      3 * o.length < 2 * t.translated.length) ∧
    (3 * o.length < 2 * t.translated.length →
      TranslationValidator.check_length t o =
        [{ level := ValidationLevel.WARNING,
           message := lengthMessage t.key t.translated.length o.length,
           key := some t.key }]) ∧
    (∃ l mid r, lengthMessage t.key t.translated.length o.length =
      l ++ (Nat.repr t.translated.length).toList ++ mid ++ (Nat.repr o.length).toList ++ r) ∧
    (o.length = 2 →
      (TranslationValidator.check_length t o ≠ [] ↔ 4 ≤ t.translated.length)) := by
  have hiff : TranslationValidator.check_length t o ≠ [] ↔
      3 * o.length < 2 * t.translated.length := by
    unfold TranslationValidator.check_length
    split_ifs with hc
    · simpa using hc
    · simpa using hc
  refine ⟨?_, hiff, ?_, ?_, ?_⟩
  · constructor
    · intro h
      have h2 : ((3 * o.length : Nat) : ℚ) < ((2 * t.translated.length : Nat) : ℚ) := by
        exact_mod_cast h
      push_cast at h2
      linarith
    · intro h
      have h2 : (3 * (o.length : ℚ)) < 2 * (t.translated.length : ℚ) := by linarith
      exact_mod_cast h2
  · intro h
    unfold TranslationValidator.check_length
    rw [if_pos h]
  · refine ⟨squote :: t.key ++ [squote] ++ " is much longer (".toList,
      " vs ".toList, " chars) - may not fit in UI".toList, ?_⟩
    simp [lengthMessage, List.append_assoc]
  · intro h2
    rw [hiff, h2]
    omega

/-- Witness for the length check: the spec scenario with original `Hi`
and a four-character translation produces exactly one warning. -/
theorem check_length_spec_witness :
    TranslationValidator.check_length
        { key := ['g'], original := [], translated := "abcd".toList } ("Hi".toList) =
      [{ level := ValidationLevel.WARNING,
         message := lengthMessage ['g'] 4 2,
         key := some ['g'] }] :=
  (check_length_spec { key := ['g'], original := [], translated := "abcd".toList }
    ("Hi".toList)).2.2.1 (by decide)

/-- Claim C2: the variable-placeholder check compares the two token
lists as sets (first conjunct ties the boolean set comparison to
set-extensional equality); equal sets produce no diagnostic, different
sets produce exactly one error diagnostic carrying the record's key,
whose missing/extra token lists are precisely the two set differences,
each rendered inside the message exactly when non-empty. -/
theorem check_variables_spec (t : Translation) (o : List Char) :
    (tokSetEqB (findVars o) (findVars t.translated) = true ↔
      ∀ x, x ∈ findVars o ↔ x ∈ findVars t.translated) ∧
    (tokSetEqB (findVars o) (findVars t.translated) = true →
      TranslationValidator.check_variables t o = []) ∧
    (tokSetEqB (findVars o) (findVars t.translated) = false →
      TranslationValidator.check_variables t o =
        [{ level := ValidationLevel.ERROR,
           message := varMismatchMessage t.key (missingVars o t.translated)
             (extraVars o t.translated),
           key := some t.key }]) ∧
    (∀ x, x ∈ missingVars o t.translated ↔
      x ∈ findVars o ∧ x ∉ findVars t.translated) ∧
    (∀ x, x ∈ extraVars o t.translated ↔
      x ∈ findVars t.translated ∧ x ∉ findVars o) ∧
    (missingVars o t.translated ≠ [] →
      ∃ l r, varMismatchMessage t.key (missingVars o t.translated) (extraVars o t.translated) =
        l ++ pySetRepr (missingVars o t.translated) ++ r) ∧
    (extraVars o t.translated ≠ [] →
      ∃ l r, varMismatchMessage t.key (missingVars o t.translated) (extraVars o t.translated) =
        l ++ pySetRepr (extraVars o t.translated) ++ r) := by
  refine ⟨?_, ?_, ?_, ?_, ?_, ?_, ?_⟩
  · simp only [tokSetEqB, tokSubsetB, Bool.and_eq_true, List.all_eq_true, List.elem_iff]
    constructor
    · rintro ⟨h1, h2⟩ x
      exact ⟨fun hx => h1 x hx, fun hx => h2 x hx⟩
    · intro h
      exact ⟨fun x hx => (h x).mp hx, fun x hx => (h x).mpr hx⟩
  · intro h
    unfold TranslationValidator.check_variables
    rw [if_pos h]
  · intro h
    unfold TranslationValidator.check_variables
    rw [if_neg (by simp [h])]
  · intro x
    simp [missingVars, List.mem_filter, List.mem_dedup, List.elem_iff]
  · intro x
    simp [extraVars, List.mem_filter, List.mem_dedup, List.elem_iff]
  · intro h
    refine ⟨("Variable mismatch in ".toList ++ squote :: t.key ++ [squote]) ++
      "\n  Missing: ".toList,
      if extraVars o t.translated = [] then []
      else "\n  Extra: ".toList ++ pySetRepr (extraVars o t.translated), ?_⟩
    simp [varMismatchMessage, h, List.append_assoc]
  · intro h
    refine ⟨("Variable mismatch in ".toList ++ squote :: t.key ++ [squote]) ++
      (if missingVars o t.translated = [] then []
       else "\n  Missing: ".toList ++ pySetRepr (missingVars o t.translated)) ++
      "\n  Extra: ".toList, [], ?_⟩
    simp [varMismatchMessage, h, List.append_assoc]

/-- Witness for the variable check: the spec scenario where the original
contains a brace token the translation lacks produces exactly one error
diagnostic for that key. -/
theorem check_variables_spec_witness :
    TranslationValidator.check_variables
        { key := "err".toList, original := [], translated := "Something went wrong!".toList }
        ("Error: ".toList ++ '{' :: "code".toList ++ ['}']) =
      [{ level := ValidationLevel.ERROR,
         message := varMismatchMessage ("err".toList)
           (missingVars ("Error: ".toList ++ '{' :: "code".toList ++ ['}'])
             ("Something went wrong!".toList))
           (extraVars ("Error: ".toList ++ '{' :: "code".toList ++ ['}'])
             ("Something went wrong!".toList)),
         key := some ("err".toList) }] :=
  (check_variables_spec
    { key := "err".toList, original := [], translated := "Something went wrong!".toList }
    ("Error: ".toList ++ '{' :: "code".toList ++ ['}'])).2.2.1 (by decide)

/-- Every token the scanner emits is a percent directive or a brace
token with a non-empty body, whatever the fuel. -/
theorem findVarsF_shape (fuel : Nat) :
    ∀ (s tok : List Char), tok ∈ findVarsF fuel s →
      tok = ['%', 's'] ∨ tok = ['%', 'd'] ∨
        ∃ body, body ≠ [] ∧ tok = '{' :: body ++ ['}'] := by
  induction fuel with
  | zero =>
    intro s tok h
    simp [findVarsF] at h
  | succ n ih =>
    intro s tok h
    cases s with
    | nil => simp [findVarsF] at h
    | cons c rest =>
      simp only [findVarsF] at h
      split_ifs at h with h1 h2 h3 h4 h5 h6
      · exact ih rest tok h
      · exact ih rest tok h
      · rcases List.mem_cons.mp h with he | hm
        · refine Or.inr (Or.inr ⟨rest.takeWhile (fun x => x != '}'), ?_, he⟩)
          intro hnil
          rw [hnil] at h2
          exact h2 rfl
        · exact ih _ tok hm
      · rcases List.mem_cons.mp h with he | hm
        · exact Or.inl he
        · exact ih _ tok hm
      · rcases List.mem_cons.mp h with he | hm
        · exact Or.inr (Or.inl he)
        · exact ih _ tok hm
      · exact ih rest tok h
      · exact ih rest tok h

/-- Claim C10: the empty brace pair is never extracted as a placeholder
token (every emitted brace token has a non-empty body), and an original
containing the empty brace pair that the translation lacks produces no
variable-mismatch diagnostic from it. -/
theorem empty_braces_never_token :
    (∀ s tok, tok ∈ findVars s →
      tok = ['%', 's'] ∨ tok = ['%', 'd'] ∨
        ∃ body, body ≠ [] ∧ tok = '{' :: body ++ ['}']) ∧
    (∀ s, ['{', '}'] ∉ findVars s) ∧
    TranslationValidator.check_variables
        { key := ['k'], original := [], translated := ['x'] } ('x' :: '{' :: ['}']) = [] := by
  refine ⟨fun s tok h => findVarsF_shape s.length s tok h, ?_, by decide⟩
  intro s hmem
  rcases findVarsF_shape s.length s _ hmem with h | h | ⟨body, hb, he⟩
  · exact absurd h (by decide)
  · exact absurd h (by decide)
  · have hlen := congrArg List.length he
    simp at hlen
    exact hb (by simpa using hlen)

/-- Witness for the token-shape theorem at a concrete scan. -/
theorem empty_braces_never_token_witness :
    ['{', 'a', '}'] = ['%', 's'] ∨ ['{', 'a', '}'] = ['%', 'd'] ∨
      ∃ body, body ≠ [] ∧ ['{', 'a', '}'] = '{' :: body ++ ['}'] :=
  empty_braces_never_token.1 ['{', 'a', '}'] ['{', 'a', '}'] (by decide)

/-- Overwriting the value at a key leaves the list of keys unchanged. -/
theorem map_overwrite_fst (m : KVMap) (k v : List Char) :
    ((m.map (fun p => if p.1 = k then (k, v) else p)).map Prod.fst) = m.map Prod.fst := by
  rw [List.map_map]
  apply List.map_congr_left
  intro p _
  by_cases hpk : p.1 = k
  · simp [Function.comp, hpk]
  · simp [Function.comp, hpk]

/-- A merge step never changes which keys are present. -/
theorem containsKey_applyTranslation (m : KVMap) (t : Translation) (k : List Char) :
    containsKey (applyTranslation m t) k = containsKey m k := by
  unfold applyTranslation
  split_ifs with hc
  · by_cases h2 : containsKey m k = true
    · rw [h2]
      rw [containsKey_iff] at h2 ⊢
      rw [map_overwrite_fst]
      exact h2
    · have h2f : containsKey m k = false := by
        cases hv : containsKey m k
        · rfl
        · exact absurd hv h2
      rw [h2f]
      cases hv : containsKey (m.map fun p => if p.1 = t.key then (t.key, t.translated) else p) k
      · rfl
      · rw [containsKey_iff, map_overwrite_fst, ← containsKey_iff, h2f] at hv
        cases hv
  · rfl

/-- The merge step on a map containing the key overwrites that key's
value. -/
theorem applyTranslation_of_contains (m : KVMap) (t : Translation)
    (hc : containsKey m t.key = true) :
    applyTranslation m t =
      m.map (fun p => if p.1 = t.key then (t.key, t.translated) else p) := by
  unfold applyTranslation
  rw [if_pos hc]

/-- The merge step on a map lacking the key does nothing. -/
theorem applyTranslation_of_not_contains (m : KVMap) (t : Translation)
    (hc : ¬(containsKey m t.key = true)) :
    applyTranslation m t = m := by
  unfold applyTranslation
  rw [if_neg hc]

/-- Claim C5: applying the same translation record twice to a map yields
the same map as applying it once (the merge step is idempotent). -/
theorem applyTranslation_idempotent (m : KVMap) (t : Translation) :
    applyTranslation (applyTranslation m t) t = applyTranslation m t := by
  by_cases hc : containsKey m t.key = true
  · have hc2 : containsKey (applyTranslation m t) t.key = true := by
      rw [containsKey_applyTranslation]
      exact hc
    rw [applyTranslation_of_contains (applyTranslation m t) t hc2,
      applyTranslation_of_contains m t hc, List.map_map]
    apply List.map_congr_left
    intro p _
    by_cases hpk : p.1 = t.key
    · simp [Function.comp, hpk]
    · simp [Function.comp, hpk]
  · have h1 := applyTranslation_of_not_contains m t hc
    rw [h1, h1]

/-- Characterization of the apply loop of `merge`: the final map is the
fold of the merge step, the applied count adds the number of records
whose key is present in the source map, and the not-found list extends
with the keys of the remaining records, in input order. -/
theorem foldl_mergeStep (ts : List Translation) :
    ∀ (m : KVMap) (a : Nat) (nf : List (List Char)),
      ts.foldl mergeStep (m, a, nf) =
        (ts.foldl applyTranslation m,
         a + (ts.filter (fun t => containsKey m t.key)).length,
         nf ++ (ts.filter (fun t => !(containsKey m t.key))).map Translation.key) := by
  induction ts with
  | nil =>
    intro m a nf
    simp
  | cons t ts ih =>
    intro m a nf
    have hkeys : ∀ t2 : Translation,
        containsKey (applyTranslation m t) t2.key = containsKey m t2.key :=
      fun t2 => containsKey_applyTranslation m t t2.key
    have hf1 : ts.filter (fun t2 => containsKey (applyTranslation m t) t2.key) =
        ts.filter (fun t2 => containsKey m t2.key) :=
      List.filter_congr (fun t2 _ => hkeys t2)
    have hf2 : ts.filter (fun t2 => !(containsKey (applyTranslation m t) t2.key)) =
        ts.filter (fun t2 => !(containsKey m t2.key)) :=
      List.filter_congr (fun t2 _ => by rw [hkeys t2])
    by_cases hc : containsKey m t.key = true
    · have hstep : mergeStep (m, a, nf) t = (applyTranslation m t, a + 1, nf) := by
        simp [mergeStep, applyTranslation, hc]
      rw [List.foldl_cons, hstep, ih (applyTranslation m t) (a + 1) nf]
      rw [List.foldl_cons]
      simp only [Prod.ext_iff]
      refine ⟨trivial, ?_, ?_⟩
      · simp only [List.filter_cons, hc, if_pos, List.length_cons, hf1]
        omega
      · simp only [List.filter_cons]
        rw [hf2]
        have : (!(containsKey m t.key)) = false := by rw [hc]; rfl
        rw [this]
        simp
    · have hcf : containsKey m t.key = false := by
        cases hv : containsKey m t.key
        · rfl
        · exact absurd hv hc
      have hstep : mergeStep (m, a, nf) t = (m, a, nf ++ [t.key]) := by
        simp [mergeStep, hcf]
      rw [List.foldl_cons, hstep, ih m a (nf ++ [t.key])]
      rw [List.foldl_cons, applyTranslation_of_not_contains m t hc]
      simp only [Prod.ext_iff]
      refine ⟨trivial, ?_, ?_⟩
      · simp [List.filter_cons, hcf]
      · simp only [List.filter_cons]
        have : (!(containsKey m t.key)) = true := by rw [hcf]; rfl
        rw [this]
        simp

/-- Claim C6: `merge` applies the records in order to a copy of the
source map, overwriting present keys and counting them as applied,
collecting absent keys as not-found without aborting; and on the spec
scenario (source with keys `a`, `b`, one record translating `a` to `X`)
it returns the expected map with zero diagnostics, one applied and zero
not-found. -/
theorem merge_applies_and_reports (source_data : KVMap) (ts : List Translation) :
    ((TranslationMerger.mergeData source_data ts true).merged_data =
        ts.foldl applyTranslation source_data ∧
      (TranslationMerger.mergeData source_data ts true).applied =
        (ts.filter (fun t => containsKey source_data t.key)).length ∧
      (TranslationMerger.mergeData source_data ts true).not_found =
        (ts.filter (fun t => !(containsKey source_data t.key))).map Translation.key) ∧
    ((TranslationMerger.mergeData [(['a'], ['1']), (['b'], ['2'])]
        [{ key := ['a'], original := [], translated := ['X'] }] true).merged_data =
        [(['a'], ['X']), (['b'], ['2'])] ∧
      (TranslationMerger.mergeData [(['a'], ['1']), (['b'], ['2'])]
        [{ key := ['a'], original := [], translated := ['X'] }] true).validation_results = [] ∧
      (TranslationMerger.mergeData [(['a'], ['1']), (['b'], ['2'])]
        [{ key := ['a'], original := [], translated := ['X'] }] true).applied = 1 ∧
      (TranslationMerger.mergeData [(['a'], ['1']), (['b'], ['2'])]
        [{ key := ['a'], original := [], translated := ['X'] }] true).not_found = []) := by
  constructor
  · have h := foldl_mergeStep ts source_data 0 []
    unfold TranslationMerger.mergeData
    dsimp only
    rw [h]
    exact ⟨rfl, by simp, by simp⟩
  · refine ⟨by decide, by decide, by decide, by decide⟩

/-- Claim C7: validation is advisory and total: with `validate=true` the
merge returns every diagnostic of every record, and the merged map, the
applied count, the not-found list and the written output are the same as
with validation disabled; in particular even when the returned
diagnostics contain error-severity entries, the apply and serialize
steps proceed unchanged. -/
theorem validation_is_advisory (s : KVMap) (ts : List Translation) :
    ((TranslationMerger.mergeData s ts true).merged_data =
        (TranslationMerger.mergeData s ts false).merged_data ∧
      (TranslationMerger.mergeData s ts true).output_text =
        (TranslationMerger.mergeData s ts false).output_text ∧
      (TranslationMerger.mergeData s ts true).applied =
        (TranslationMerger.mergeData s ts false).applied ∧
      (TranslationMerger.mergeData s ts true).not_found =
        (TranslationMerger.mergeData s ts false).not_found) ∧
    (TranslationMerger.mergeData s ts true).validation_results =
      ts.flatMap (fun t => TranslationValidator.validate t (getD s t.key [])) ∧
    ((∃ r ∈ (TranslationMerger.mergeData s ts true).validation_results,
        r.level = ValidationLevel.ERROR) →
      (TranslationMerger.mergeData s ts true).merged_data = ts.foldl applyTranslation s ∧
      (TranslationMerger.mergeData s ts true).output_text =
        INIParser.write (ts.foldl applyTranslation s)) := by
  refine ⟨⟨rfl, rfl, rfl, rfl⟩, rfl, ?_⟩
  intro _
  have h := foldl_mergeStep ts s 0 []
  unfold TranslationMerger.mergeData
  dsimp only
  rw [h]
  exact ⟨rfl, rfl⟩

/-- Witness for advisory validation: a record whose translation drops a
brace token yields an error diagnostic, yet the merge still overwrites
the key. -/
theorem validation_is_advisory_witness :
    (∃ r ∈ (TranslationMerger.mergeData [(['k'], ['{', 'x', '}'])]
        [{ key := ['k'], original := [], translated := ['y'] }] true).validation_results,
      r.level = ValidationLevel.ERROR) ∧
    (TranslationMerger.mergeData [(['k'], ['{', 'x', '}'])]
        [{ key := ['k'], original := [], translated := ['y'] }] true).merged_data =
      [{ key := ['k'], original := [], translated := ['y'] }].foldl applyTranslation
        [(['k'], ['{', 'x', '}'])] :=
  ⟨by decide,
    ((validation_is_advisory [(['k'], ['{', 'x', '}'])]
      [{ key := ['k'], original := [], translated := ['y'] }]).2.2 (by decide)).1⟩

/-- Inserting an entry not newer than any element of a descending list
puts it at the end (the stable descending insertion step). -/
theorem insertByTimeDesc_ge (e : BackupFile) (l : List BackupFile)
    (h : ∀ y ∈ l, ¬(y.time < e.time)) : insertByTimeDesc e l = l ++ [e] := by
  induction l with
  | nil => rfl
  | cons x xs ih =>
    have hx := h x (List.mem_cons_self x xs)
    simp only [insertByTimeDesc, if_neg hx]
    rw [ih (fun y hy => h y (List.mem_cons_of_mem x hy))]
    rfl

/-- Sorting a strictly ascending list by time descending reverses it. -/
theorem sortByTimeDesc_ascending (l : List BackupFile)
    (h : l.Pairwise (fun a b => a.time < b.time)) :
    sortByTimeDesc l = l.reverse := by
  induction l with
  | nil => rfl
  | cons x xs ih =>
    have hx : ∀ y ∈ xs, x.time < y.time := fun y hy => List.rel_of_pairwise_cons h hy
    have hxs : xs.Pairwise (fun a b => a.time < b.time) := h.of_cons
    simp only [sortByTimeDesc]
    rw [ih hxs]
    rw [insertByTimeDesc_ge x xs.reverse (fun y hy => by
      have := hx y (List.mem_reverse.mp hy)
      omega)]
    simp

/-- Unfolding equation for `create_backup`. -/
theorem create_backup_def (dir : List BackupFile) (stem : List Char) (now : Nat) :
    BackupManager.create_backup dir stem now =
      BackupManager.cleanup_old_backups
        (dir.filter (fun e => !(e == { stem := stem, time := now })) ++
          [{ stem := stem, time := now }]) stem 5 := rfl

/-- Unfolding equation for `cleanup_old_backups`. -/
theorem cleanup_old_backups_def (dir : List BackupFile) (stem : List Char) (keep : Nat) :
    BackupManager.cleanup_old_backups dir stem keep =
      dir.filter (fun e => !(e.stem == stem) ||
        ((sortByTimeDesc (dir.filter (fun e => e.stem == stem))).take keep).contains e) := rfl

/-- One `create_backup` call on a directory holding at most five strictly
older backups of the same stem keeps exactly the newest five of the
extended set, in ascending order. -/
theorem create_backup_step (stem : List Char) (p : List Nat) (t : Nat)
    (hp : p.Pairwise (· < ·)) (hlt : ∀ x ∈ p, x < t) :
    BackupManager.create_backup
        (p.map (fun x => ({ stem := stem, time := x } : BackupFile))) stem t =
      ((p ++ [t]).drop (p.length + 1 - 5)).map
        (fun x => ({ stem := stem, time := x } : BackupFile)) := by
  set mk := fun x => ({ stem := stem, time := x } : BackupFile) with hmk
  have hmkinj : Function.Injective mk := by
    intro a b hab
    simpa [hmk] using hab
  have hqpair : (p ++ [t]).Pairwise (· < ·) := by
    rw [List.pairwise_append]
    refine ⟨hp, List.pairwise_singleton _ _, ?_⟩
    intro x hx y hy
    rw [List.mem_singleton] at hy
    subst hy
    exact hlt x hx
  have hqnodup : (p ++ [t]).Nodup := hqpair.imp Nat.ne_of_lt
  rw [create_backup_def]
  have hfilter1 : (p.map mk).filter (fun e => !(e == ({ stem := stem, time := t } : BackupFile))) =
      p.map mk := by
    rw [List.filter_eq_self]
    intro e he
    rw [List.mem_map] at he
    obtain ⟨x, hx, rfl⟩ := he
    have hne : mk x ≠ ({ stem := stem, time := t } : BackupFile) := by
      intro hcontra
      have hxt : x = t := by simpa [hmk] using hcontra
      subst hxt
      exact absurd (hlt x hx) (lt_irrefl x)
    simp [hne]
  rw [hfilter1]
  have hdir2 : p.map mk ++ [({ stem := stem, time := t } : BackupFile)] = (p ++ [t]).map mk := by
    rw [List.map_append]
    rfl
  rw [hdir2, cleanup_old_backups_def]
  have hstems : ∀ e ∈ (p ++ [t]).map mk, (e.stem == stem) = true := by
    intro e he
    rw [List.mem_map] at he
    obtain ⟨x, _, rfl⟩ := he
    simp [hmk]
  rw [List.filter_eq_self.mpr hstems]
  rw [sortByTimeDesc_ascending ((p ++ [t]).map mk)
    (List.Pairwise.map mk (fun a b hab => by simpa [hmk] using hab) hqpair)]
  have htake : ((p ++ [t]).map mk).reverse.take 5 =
      (((p ++ [t]).map mk).drop ((((p ++ [t]).map mk)).length - 5)).reverse := by
    have h1 := List.rtake_eq_reverse_take_reverse (l := (p ++ [t]).map mk) (n := 5)
    rw [List.rtake] at h1
    rw [h1, List.reverse_reverse]
  rw [htake]
  have hpred : ∀ e ∈ (p ++ [t]).map mk,
      ((!(e.stem == stem)) ||
        ((((p ++ [t]).map mk).drop ((((p ++ [t]).map mk)).length - 5)).reverse.contains e)) =
      ((((p ++ [t]).map mk).drop ((((p ++ [t]).map mk)).length - 5)).reverse.contains e) := by
    intro e he
    rw [hstems e he]
    rfl
  rw [List.filter_congr hpred]
  have hsplit := List.take_append_drop ((((p ++ [t]).map mk)).length - 5) ((p ++ [t]).map mk)
  set A := ((p ++ [t]).map mk).take ((((p ++ [t]).map mk)).length - 5) with hA
  set B := ((p ++ [t]).map mk).drop ((((p ++ [t]).map mk)).length - 5) with hB
  have hnodupAB : (A ++ B).Nodup := by
    rw [hsplit]
    exact hqnodup.map hmkinj
  have hconsplit : List.filter (fun e => B.reverse.contains e) ((p ++ [t]).map mk) =
      List.filter (fun e => B.reverse.contains e) A ++
        List.filter (fun e => B.reverse.contains e) B := by
    rw [← List.filter_append, hsplit]
  rw [hconsplit]
  have hfA : A.filter (fun e => B.reverse.contains e) = [] := by
    rw [List.filter_eq_nil_iff]
    intro e heA hcon
    have heB : e ∈ B := List.mem_reverse.mp (List.elem_iff.mp hcon)
    rw [List.nodup_append] at hnodupAB
    exact hnodupAB.2.2 heA heB
  have hfB : B.filter (fun e => B.reverse.contains e) = B := by
    rw [List.filter_eq_self]
    intro e heB
    exact List.elem_iff.mpr (List.mem_reverse.mpr heB)
  rw [hfA, hfB, List.nil_append, hB]
  rw [List.length_map, ← List.map_drop]
  have hlenq : (p ++ [t]).length = p.length + 1 := by simp
  rw [hlenq]

/-- Taking the last five of a concatenation whose right part has at
least five elements ignores the left part. -/
theorem drop_len_sub_append (h x : List Nat) (hx : 5 ≤ x.length) :
    (h ++ x).drop ((h ++ x).length - 5) = x.drop (x.length - 5) := by
  have hidx : (h ++ x).length - 5 = h.length + (x.length - 5) := by
    rw [List.length_append]
    omega
  rw [hidx, List.drop_append]

/-- Keeping only the last five elements before appending more does not
change the last five of the concatenation. -/
theorem drop_lastN_append (a b : List Nat) :
    ((a.drop (a.length - 5)) ++ b).drop (((a.drop (a.length - 5)) ++ b).length - 5) =
      (a ++ b).drop ((a ++ b).length - 5) := by
  by_cases hle : a.length ≤ 5
  · have : a.length - 5 = 0 := by omega
    rw [this, List.drop_zero]
  · have hdroplen : (a.drop (a.length - 5)).length = 5 := by
      rw [List.length_drop]
      omega
    have hsplit := List.take_append_drop (a.length - 5) a
    conv_rhs => rw [← hsplit, List.append_assoc]
    rw [drop_len_sub_append (a.take (a.length - 5)) (a.drop (a.length - 5) ++ b)
      (by rw [List.length_append, hdroplen]; omega)]

/-- Folding `create_backup` over strictly increasing call times, starting
from the backups of at most the five latest earlier times, leaves exactly
the backups of the five most recent times. -/
theorem foldl_create_backup (stem : List Char) :
    ∀ (ts cur : List Nat), (cur ++ ts).Pairwise (· < ·) → cur.length ≤ 5 →
      ts.foldl (fun dir t => BackupManager.create_backup dir stem t)
          (cur.map (fun x => ({ stem := stem, time := x } : BackupFile))) =
        ((cur ++ ts).drop ((cur ++ ts).length - 5)).map
          (fun x => ({ stem := stem, time := x } : BackupFile)) := by
  intro ts
  induction ts with
  | nil =>
    intro cur hp hlen
    simp only [List.append_nil, List.foldl_nil]
    have hz : cur.length - 5 = 0 := by omega
    rw [hz, List.drop_zero]
  | cons t ts ih =>
    intro cur hp hlen
    have hcur : cur.Pairwise (· < ·) := (List.pairwise_append.mp hp).1
    have hcross := (List.pairwise_append.mp hp).2.2
    have hlt : ∀ x ∈ cur, x < t :=
      fun x hx => hcross x hx t (List.mem_cons_self t ts)
    rw [List.foldl_cons, create_backup_step stem cur t hcur hlt]
    have hidx : cur.length + 1 - 5 = (cur ++ [t]).length - 5 := by
      simp
    rw [hidx]
    have hp2 : (((cur ++ [t]).drop ((cur ++ [t]).length - 5)) ++ ts).Pairwise (· < ·) := by
      apply List.Pairwise.sublist
        (List.Sublist.append_right (List.IsSuffix.sublist (List.drop_suffix _ _)) ts)
      have : (cur ++ [t]) ++ ts = cur ++ t :: ts := by simp
      rw [this]
      exact hp
    have hlen2 : ((cur ++ [t]).drop ((cur ++ [t]).length - 5)).length ≤ 5 := by
      rw [List.length_drop]
      omega
    rw [ih ((cur ++ [t]).drop ((cur ++ [t]).length - 5)) hp2 hlen2]
    rw [drop_lastN_append (cur ++ [t]) ts]
    have : (cur ++ [t]) ++ ts = cur ++ t :: ts := by simp
    rw [this]

/-- Claim C9: after more than five `create_backup` calls for one file at
strictly increasing times, starting from an empty backup directory, the
directory holds exactly the five most recently created backups of that
stem: the five latest call times, and nothing else. -/
theorem backup_pruned_to_five (stem : List Char) (ts : List Nat)
    (hsorted : ts.Pairwise (· < ·)) (hlen : 5 < ts.length) :
    ts.foldl (fun dir t => BackupManager.create_backup dir stem t) [] =
      (ts.drop (ts.length - 5)).map
        (fun x => ({ stem := stem, time := x } : BackupFile)) ∧
    ((ts.foldl (fun dir t => BackupManager.create_backup dir stem t) []).filter
        (fun e => e.stem == stem)).length = 5 := by
  have h := foldl_create_backup stem ts [] (by simpa using hsorted) (by simp)
  simp only [List.map_nil, List.nil_append] at h
  refine ⟨h, ?_⟩
  rw [h, List.filter_eq_self.mpr ?_]
  · rw [List.length_map, List.length_drop]
    omega
  · intro e he
    rw [List.mem_map] at he
    obtain ⟨x, _, rfl⟩ := he
    simp

/-- Witness for the pruning bound: seven backups at times 0 to 6 leave
exactly the five entries with times 2 to 6. -/
theorem backup_pruned_to_five_witness :
    [0, 1, 2, 3, 4, 5, 6].foldl
        (fun dir t => BackupManager.create_backup dir ['g'] t) [] =
      (([0, 1, 2, 3, 4, 5, 6] : List Nat).drop
          (([0, 1, 2, 3, 4, 5, 6] : List Nat).length - 5)).map
        (fun x => ({ stem := ['g'], time := x } : BackupFile)) ∧
    (([0, 1, 2, 3, 4, 5, 6].foldl
        (fun dir t => BackupManager.create_backup dir ['g'] t) []).filter
        (fun e => e.stem == ['g'])).length = 5 :=
  backup_pruned_to_five ['g'] [0, 1, 2, 3, 4, 5, 6] (by decide) (by decide)
